import Mathlib

/-!
# Verification of the attuned.prmanager batch orchestrator

A shallow embedding, in Lean 4, of the core of the `attuned.prmanager`
repository: the commit-range differ and ticket helpers
(`internal/git/repo.go`), the concurrent multi-repository scan session
(`loadBatchReposCmd` and its consumer handlers), and the sequential batch
pipeline (`startBatchProcessingCmd` / `handleBatchRepoResult`).

Pure Go functions become Lean functions.  External effectful collaborators
(the `git` CLI fetch, the go-git object store, the GitHub client, the
compiled `regexp.Regexp`) are abstracted as explicit inputs: a finite commit
graph, result oracles for the per-repository network steps, and a
match-listing function standing for `FindAllStringSubmatch`.  The
goroutine/channel structure of the scan session is embedded as a labelled
transition system whose steps are exactly the atomic actions the Go code
can perform (including the nondeterministic branch choice of a `select`
whose cases are simultaneously ready).

The file is organised as definitions first, then the theorems.
-/

namespace AttPR

/-! ## Definitions: Go string primitives

`strings.ToUpper` and the byte-wise string order used by `sort.Strings`,
embedded structurally so that they evaluate inside the kernel.  For valid
UTF-8, Go's byte-wise comparison coincides with code-point-wise
lexicographic comparison, which is what `natListLe` implements.
-/

/-- Lexicographic comparison of code-point sequences; `natListLe a b = true`
means `a ≤ b` in the byte order Go's `sort.Strings` uses. -/
def natListLe : List Nat → List Nat → Bool
  | [], _ => true
  | _ :: _, [] => false
  | a :: as, b :: bs =>
    if a < b then true
    else if b < a then false
    else natListLe as bs

/-- Go string comparison (the order of `sort.Strings`). -/
def strLe (a b : String) : Bool :=
  natListLe (a.data.map Char.toNat) (b.data.map Char.toNat)

/-- The propositional form of `strLe`, used to state sortedness. -/
def TicketLe (a b : String) : Prop := strLe a b = true

instance : DecidableRel TicketLe := fun _ _ => inferInstanceAs (Decidable (_ = true))

/-- `strings.ToUpper`, character by character (ASCII case mapping suffices
for ticket identifiers). -/
def toUpperStr (s : String) : String := ⟨s.data.map Char.toUpper⟩

/-- `sort.Strings`: sort a list of strings in Go's byte order. -/
def sortStrings (l : List String) : List String := l.insertionSort TicketLe

/-! ## Definitions: ticket extraction (`internal/git/repo.go`)

`ExtractTickets` receives a `*regexp.Regexp`.  We embed the compiled
pattern as the function `FindAllStringSubmatch text -1` it is queried
with: for every match, the slice `[whole match, group 1, group 2, ...]`.
A Go `nil` pattern is `none`.
-/

/-- Abstraction of a compiled `*regexp.Regexp` (possibly `nil`): the
`FindAllStringSubmatch` listing for each input text. -/
def TicketRegex : Type := Option (String → List (List String))

/-- `ExtractTickets` from `internal/git/repo.go`: for each match whose
slice has length `> 1`, take `match[1]` (the first capturing group),
uppercase it, collect into a set (de-duplicate) and return sorted. -/
def ExtractTickets (text : String) (ticketRegex : TicketRegex) : List String :=
  match ticketRegex with
  | none => []
  | some findAllStringSubmatch =>
      sortStrings
        ((((findAllStringSubmatch text).filterMap (fun m => m[1]?)).map toUpperStr).dedup)

/-- `models.CommitInfo`: short hash, first message line, extracted tickets. -/
structure CommitInfo where
  Hash : String
  Message : String
  Tickets : List String
deriving DecidableEq, Repr

/-- `GetAllTickets` from `internal/git/repo.go`: union of the commits'
ticket lists (collected into a set, i.e. de-duplicated), then sorted. -/
def GetAllTickets (commits : List CommitInfo) : List String :=
  sortStrings ((commits.flatMap (fun c => c.Tickets)).dedup)

/-- Concrete commits for the spec's C8 instance: messages carrying the
tickets `att-2`, `ATT-1` and `Att-2`, with `Tickets` produced by
`ExtractTickets` exactly as `GetCommitsBetween` produces them. -/
def c8Commits : List CommitInfo :=
  [CommitInfo.mk "abc1234" "feat: a att-2"
      (ExtractTickets "feat: a att-2" (some (fun _ => [["att-2", "att-2"]]))),
   CommitInfo.mk "def5678" "fix: b ATT-1"
      (ExtractTickets "fix: b ATT-1" (some (fun _ => [["ATT-1", "ATT-1"]]))),
   CommitInfo.mk "0a1b2c3" "chore: c Att-2"
      (ExtractTickets "chore: c Att-2" (some (fun _ => [["Att-2", "Att-2"]])))]

/-- A concrete match listing for the C10 witness: the pattern matches the
text twice but has no capturing group, so every match slice has length 1. -/
def c10FindAll : String → List (List String) := fun _ => [["att-7"], ["att-9"]]

/-! ## Definitions: commit graph and `GetCommitsBetween`
(`internal/git/repo.go`)

go-git's object store is embedded as a finite commit graph: each entry is
`(commit identifier, parent identifiers)`.  `repo.Log` with default options
is go-git's `NewCommitPreorderIter`: a depth-first pre-order walk over all
parent edges that yields every reachable commit exactly once (an internal
`seen` set).  `GetCommitsBetween` runs that walk twice — once from the base
ref to build the base-reachable set, once from the head ref — and emits
head-walk commits not in the base set, without ever stopping the walk.
-/

/-- The commit DAG of one repository: `(commit id, parent ids)` entries.  A
well-formed object store contains every parent (`Graph.WF`). -/
structure Graph where
  entries : List (Nat × List Nat)
deriving DecidableEq, Repr

/-- The commit identifiers present in the object store. -/
def Graph.nodes (g : Graph) : List Nat := g.entries.map (fun e => e.1)

/-- The parent list of a commit (`[]` for commits absent from the store;
go-git would instead fail the walk, which cannot happen on a well-formed
repository). -/
def Graph.parentsOf (g : Graph) (n : Nat) : List Nat :=
  match g.entries.find? (fun e => e.1 == n) with
  | some e => e.2
  | none => []

/-- Well-formedness of the object store: every parent edge stays inside it. -/
def Graph.WF (g : Graph) : Prop :=
  ∀ n ∈ g.nodes, ∀ p ∈ g.parentsOf n, p ∈ g.nodes

instance (g : Graph) : Decidable g.WF :=
  inferInstanceAs (Decidable (∀ n ∈ g.nodes, ∀ p ∈ g.parentsOf n, p ∈ g.nodes))

/-- go-git's pre-order commit walk (`repo.Log` + `ForEach` accumulation):
`stack` holds pending commits (first parent explored first — on visiting a
commit its parents iterator is pushed on the stack), `seen` accumulates
visited commits newest-first and is the returned value.  A commit already
seen is skipped, as go-git's iterator yields each commit at most once;
the walk never stops early. -/
def repoLog (g : Graph) (stack seen : List Nat) : List Nat :=
  match stack with
  | [] => seen
  | x :: rest =>
    if h : x ∈ seen ∨ x ∉ g.nodes then repoLog g rest seen
    else repoLog g (g.parentsOf x ++ rest) (x :: seen)
termination_by ((g.nodes.toFinset \ seen.toFinset).card, stack.length)
decreasing_by
  · apply Prod.Lex.right
    simp
  · apply Prod.Lex.left
    push_neg at h
    obtain ⟨hxs, hxn⟩ := h
    rw [List.toFinset_cons, Finset.sdiff_insert]
    exact Finset.card_erase_lt_of_mem
      (Finset.mem_sdiff.mpr ⟨List.mem_toFinset.mpr hxn, fun hc => hxs (List.mem_toFinset.mp hc)⟩)

/-- Ancestry: `Reaches g a b` iff `b` is reachable from `a` along parent
edges (including `a` itself), following all parents of merge commits. -/
inductive Reaches (g : Graph) : Nat → Nat → Prop
  | refl (a : Nat) : Reaches g a a
  | step {a b c : Nat} : b ∈ g.parentsOf a → Reaches g b c → Reaches g a c

/-- Invariant of the pre-order walk: every parent of an already-seen commit
is itself seen or still pending on the stack. -/
def TInv (g : Graph) (stack seen : List Nat) : Prop :=
  ∀ s ∈ seen, ∀ p ∈ g.parentsOf s, p ∈ g.nodes → p ∈ seen ∨ p ∈ stack

/-- `strings.Join(branches, ", ")`. -/
def joinComma : List String → String
  | [] => ""
  | [b] => b
  | b :: rest => b ++ ", " ++ joinComma rest

/-- The error types of `internal/git/repo.go`: `BranchNotFoundError`
carries the missing branch names, distinguishable from the generic
`GitError` command failure. -/
inductive GitErr where
  | branchNotFound (Branches : List String)
  | gitError (Command Output : String)
deriving DecidableEq, Repr

/-- The `Error()` methods of the two error types. -/
def GitErr.message : GitErr → String
  | .branchNotFound bs => "Branch not found on remote: " ++ joinComma bs
  | .gitError cmd out => "git " ++ cmd ++ ": " ++ out

/-- A repository: named refs plus the commit graph. -/
structure Repo where
  refs : List (String × Nat)
  graph : Graph
deriving DecidableEq, Repr

/-- `repo.ResolveRevision`, restricted to the exact ref-name lookups the
code performs. -/
def Repo.resolveRevision (r : Repo) (ref : String) : Option Nat :=
  (r.refs.find? (fun e => e.1 == ref)).map (fun e => e.2)

/-- `GetCommitsBetween` from `internal/git/repo.go`.  Resolve
`refs/remotes/origin/<base>` (else `BranchNotFoundError{[base]}`), then
`refs/remotes/origin/<head>` (else `BranchNotFoundError{[head]}`); build
the base-reachable set with a full walk; walk the head ancestry in
pre-order and emit every commit that is neither already emitted nor
base-reachable (the Go loop returns `nil` to continue, never stopping at a
base-reachable commit).  We return commit identifiers; the Go code maps
each to a `CommitInfo` (7-char hash, first message line, tickets via
`ExtractTickets` on the full message), which affects neither which commits
are emitted nor their order. -/
def GetCommitsBetween (r : Repo) (baseBranch headBranch : String) :
    Except GitErr (List Nat) :=
  match r.resolveRevision ("refs/remotes/origin/" ++ baseBranch) with
  | none => .error (.branchNotFound [baseBranch])
  | some baseHash =>
    match r.resolveRevision ("refs/remotes/origin/" ++ headBranch) with
    | none => .error (.branchNotFound [headBranch])
    | some headHash =>
      let baseCommits := repoLog r.graph [baseHash] []
      .ok (((repoLog r.graph [headHash] []).reverse).filter
        (fun c => decide (c ∉ baseCommits)))

/-- Concrete repository for the C1 witness: `main` points at commit 1,
`staging` at merge commit 4 whose first parent 1 is base-reachable and
whose second parent 3 is head-only work on a side branch; 2 is the common
ancestor. -/
def c1Repo : Repo :=
  { refs := [("refs/remotes/origin/main", 1), ("refs/remotes/origin/staging", 4)],
    graph := { entries := [(4, [1, 3]), (1, [2]), (3, [2]), (2, [])] } }

/-- Concrete repository for the C9 witness: only `main` resolves. -/
def c9Repo : Repo :=
  { refs := [("refs/remotes/origin/main", 1)],
    graph := { entries := [(1, [])] } }

/-! ## Definitions: batch pipeline data model
(`internal/models`, `internal/app`)
-/

/-- `models.PrType`. -/
inductive PrType where
  | devToStaging
  | stagingToMain
deriving DecidableEq, Repr

/-- `PrType.BaseBranch(mainBranch)`. -/
def PrType.BaseBranch : PrType → String → String
  | .devToStaging, _ => "staging"
  | .stagingToMain, mainBranch => mainBranch

/-- `PrType.HeadBranch()`. -/
def PrType.HeadBranch : PrType → String
  | .devToStaging => "dev"
  | .stagingToMain => "staging"

/-- `models.RepoInfo` (the optional parent-repository name only affects
discovery-time sorting and is omitted). -/
structure RepoInfo where
  Path : String
  DisplayName : String
  MainBranch : String
deriving DecidableEq, Repr

/-- `models.BatchStatus`: in Go an interface with four private
implementing structs, i.e. a tagged union. -/
inductive BatchStatus where
  | created
  | updated
  | skipped (reason : String)
  | failed (err : String)
deriving DecidableEq, Repr

/-- `models.IsStatusCreated`. -/
def IsStatusCreated : BatchStatus → Bool
  | .created => true
  | _ => false

/-- `models.IsStatusUpdated`. -/
def IsStatusUpdated : BatchStatus → Bool
  | .updated => true
  | _ => false

/-- `models.IsStatusSkipped`. -/
def IsStatusSkipped : BatchStatus → Bool
  | .skipped _ => true
  | _ => false

/-- `models.IsStatusFailed`. -/
def IsStatusFailed : BatchStatus → Bool
  | .failed _ => true
  | _ => false

/-- `models.IsStatusSuccess`. -/
def IsStatusSuccess (s : BatchStatus) : Bool :=
  IsStatusCreated s || IsStatusUpdated s

/-- `models.GetStatusReason`. -/
def GetStatusReason : BatchStatus → String
  | .skipped reason => reason
  | .failed err => err
  | _ => ""

/-- `models.BatchResult`. -/
structure BatchResult where
  Repo : RepoInfo
  Status : BatchStatus
  PrURL : Option String := none
  Tickets : List String := []
deriving DecidableEq, Repr

/-! ## Definitions: batch pipeline (`startBatchProcessingCmd`,
`handleBatchRepoResult`)

The three network-bound calls of `startBatchProcessingCmd` are abstracted
as a per-repository oracle giving each call's outcome; everything around
them is translated literally.
-/

/-- Outcomes of the network-bound calls for one repository:
`git.FetchBranches(path, [head, base])`,
`git.GetCommitsBetween(path, base, head, regex)` (already-converted to its
`err.Error()` string on failure, as the Go code does), and
`github.CreateOrUpdatePR(path, head, base, title, tickets, org)` returning
the PR URL and whether an existing PR was updated. -/
structure StepOracle where
  fetchBranches : String → String → Except String Unit
  getCommitsBetween : String → String → Except String (List CommitInfo)
  createOrUpdatePR : String → String → String → List String → Except String (String × Bool)

/-- `startBatchProcessingCmd` (processing of one repository): skip
out-of-range indices (`nil` message); record `Skipped("Not selected")` for
unselected repositories; in dry-run mode synthesize a `Created` outcome;
fail with "No PR type selected" when no PR type is set; then fetch → diff
→ create-or-update, converting each step error into `Failed(err)` for this
repository only.  Progress-label sends (`sendProgress`) do not influence
the outcome and are omitted. -/
def startBatchProcessingCmd (repos : List RepoInfo) (selected : List Bool)
    (dryRun : Bool) (prType : Option PrType) (prTitle : String)
    (oracle : Nat → StepOracle) (repoIndex : Nat) : Option BatchResult :=
  match repos[repoIndex]? with
  | none => none
  | some repo =>
    if selected.length ≤ repoIndex ∨ selected.getD repoIndex false = false then
      some { Repo := repo, Status := .skipped "Not selected" }
    else if dryRun then
      some { Repo := repo, Status := .created,
             PrURL := some ("https://github.com/example/" ++ repo.DisplayName
               ++ "/pull/123 (DRY RUN)") }
    else
      match prType with
      | none => some { Repo := repo, Status := .failed "No PR type selected" }
      | some pt =>
        let headBranch := pt.HeadBranch
        let baseBranch := pt.BaseBranch repo.MainBranch
        match (oracle repoIndex).fetchBranches headBranch baseBranch with
        | .error e => some { Repo := repo, Status := .failed e }
        | .ok _ =>
          match (oracle repoIndex).getCommitsBetween baseBranch headBranch with
          | .error e => some { Repo := repo, Status := .failed e }
          | .ok commits =>
            if commits.length = 0 then
              some { Repo := repo, Status := .skipped "No commits to merge" }
            else
              let tickets := GetAllTickets commits
              match (oracle repoIndex).createOrUpdatePR headBranch baseBranch
                  prTitle tickets with
              | .error e => some { Repo := repo, Status := .failed e }
              | .ok (url, updated) =>
                some { Repo := repo,
                       Status := if updated then .updated else .created,
                       PrURL := some url, Tickets := tickets }

/-- The recording filter of `handleBatchRepoResult`: every outcome is
appended to `batchResults` except `Skipped("Not selected")` bookkeeping
noise. -/
def recordResult (results : List BatchResult) (res : BatchResult) : List BatchResult :=
  if IsStatusSkipped res.Status = false ∨ GetStatusReason res.Status ≠ "Not selected" then
    results ++ [res]
  else results

/-- One recorded step as an option, for stating what the loop produces. -/
def recordStep (repos : List RepoInfo) (selected : List Bool) (dryRun : Bool)
    (prType : Option PrType) (prTitle : String) (oracle : Nat → StepOracle)
    (j : Nat) : Option BatchResult :=
  match startBatchProcessingCmd repos selected dryRun prType prTitle oracle j with
  | none => none
  | some res =>
    if IsStatusSkipped res.Status = false ∨ GetStatusReason res.Status ≠ "Not selected" then
      some res
    else none

/-- The batch loop driven by `handleBatchRepoResult`: process repository
`i`, record its outcome, advance to `i + 1` until `batchCurrent ≥
len(batchRepos)`.  `fuel` bounds the iteration count and is
`repos.length` at entry. -/
def runBatchAux (repos : List RepoInfo) (selected : List Bool) (dryRun : Bool)
    (prType : Option PrType) (prTitle : String) (oracle : Nat → StepOracle) :
    Nat → Nat → List BatchResult → List BatchResult
  | 0, _, results => results
  | fuel + 1, i, results =>
    match startBatchProcessingCmd repos selected dryRun prType prTitle oracle i with
    | none => results
    | some res =>
      if repos.length ≤ i + 1 then recordResult results res
      else runBatchAux repos selected dryRun prType prTitle oracle fuel (i + 1)
        (recordResult results res)

/-- A whole batch run, starting at repository 0 with no recorded results
(`handleKey` on the confirmation screen sets `batchCurrent = 0`,
`batchResults = nil`). -/
def runBatch (repos : List RepoInfo) (selected : List Bool) (dryRun : Bool)
    (prType : Option PrType) (prTitle : String) (oracle : Nat → StepOracle) :
    List BatchResult :=
  runBatchAux repos selected dryRun prType prTitle oracle repos.length 0 []

/-! ## Definitions: scan session sizing (`selectPrType`,
`loadBatchReposCmd`)
-/

/-- `selectPrType` in `internal/app/app.go` creates the scan result stream
with `make(chan batchRepoCommitResult, 50)`: a fixed capacity of 50. -/
def batchResultsChanCapacity : Nat := 50

/-- `loadBatchReposCmd` launches one worker goroutine per discovered
repository. -/
def scanWorkerCount (repos : List RepoInfo) : Nat := repos.length

/-- A fleet of 50 repositories — the C5 counterexample input. -/
def c5Repos : List RepoInfo :=
  List.replicate 50 { Path := "p", DisplayName := "d", MainBranch := "main" }

/-- A fleet of 3 repositories — the C5 witness input. -/
def c5SmallRepos : List RepoInfo :=
  List.replicate 3 { Path := "p", DisplayName := "d", MainBranch := "main" }

/-- Five repositories for the C6 witness. -/
def c6Repos : List RepoInfo :=
  [{ Path := "p1", DisplayName := "r1", MainBranch := "main" },
   { Path := "p2", DisplayName := "r2", MainBranch := "main" },
   { Path := "p3", DisplayName := "r3", MainBranch := "main" },
   { Path := "p4", DisplayName := "r4", MainBranch := "master" },
   { Path := "p5", DisplayName := "r5", MainBranch := "main" }]

/-- Oracle for the C6 witness: repository 3 (index 2) throws on fetch, the
others succeed with one commit each. -/
def c6Oracle : Nat → StepOracle := fun i =>
  { fetchBranches := fun _ _ =>
      if i = 2 then .error "git fetch: network unreachable" else .ok (),
    getCommitsBetween := fun _ _ =>
      .ok [{ Hash := "abc1234", Message := "feat: x", Tickets := ["ATT-1"] }],
    createOrUpdatePR := fun _ _ _ _ => .ok ("https://github.com/x/pull/1", false) }

/-- Oracle for the C7 witness: fetch succeeds and the diff is empty. -/
def c7Oracle : Nat → StepOracle := fun _ =>
  { fetchBranches := fun _ _ => .ok (),
    getCommitsBetween := fun _ _ => .ok [],
    createOrUpdatePR := fun _ _ _ _ => .ok ("https://github.com/x/pull/1", false) }

/-! ## Definitions: scan-session consumer (`handleBatchRepoCommitResult`,
`handleBatchRepoSelectKey`, `cancelBatchFetch`)

The Bubble Tea handlers are pure functions from the model and a message to
an updated model and a command; we embed the fields they touch.
-/

/-- The screens relevant to the scan session. -/
inductive Screen where
  | batchRepoSelect
  | loading
  | other
deriving DecidableEq, Repr

/-- The commands the embedded handlers can hand back to the runtime. -/
inductive BatchCmd where
  | listenForBatchCommits
  | fetchBatchCommits
  | noCmd
deriving DecidableEq, Repr

/-- The slice of the `Model` struct the scan-session handlers read and
write.  `batchResultsChanOpen` stands for `batchResultsChan != nil`,
`batchFetchCancelSet` for `batchFetchCancel != nil`, and `cancelTriggered`
records whether the cancellation function has been invoked. -/
structure ScanModel where
  screen : Screen
  batchRepoCommits : List (Option (List CommitInfo))
  batchSelected : List Bool
  batchFetchPending : Int
  batchResultsChanOpen : Bool
  batchFetchCancelSet : Bool
  cancelTriggered : Bool
  loadingMessage : String
deriving DecidableEq, Repr

/-- `cancelBatchFetch`: invoke the cancel function if set, clear it, and
drop the channel reference (stop listening to the stream). -/
def cancelBatchFetch (m : ScanModel) : ScanModel :=
  let m := if m.batchFetchCancelSet then
      { m with cancelTriggered := true, batchFetchCancelSet := false }
    else m
  { m with batchResultsChanOpen := false }

/-- The first two statements of `handleBatchRepoCommitResult`: store the
received commits (a non-`nil` pointer: the entry leaves the pending state)
and decrement the pending count. -/
def storeCommitResult (m : ScanModel) (index : Nat) (commits : List CommitInfo) : ScanModel :=
  let m := if index < m.batchRepoCommits.length then
      { m with batchRepoCommits := m.batchRepoCommits.set index (some commits) }
    else m
  { m with batchFetchPending := m.batchFetchPending - 1 }

/-- The `allDone` scan of `handleBatchRepoCommitResult`: false exactly when
some selected repository within range still has a `nil` entry. -/
def allSelectedDone (selected : List Bool)
    (commitsArr : List (Option (List CommitInfo))) : Bool :=
  (List.range selected.length).all fun i =>
    !(selected.getD i false) || !(decide (i < commitsArr.length))
      || (commitsArr.getD i none).isSome

/-- `handleBatchRepoCommitResult`: store the result; on the waiting
(`Loading`) screen, once every selected repository has reported, cancel the
remaining fetches, stop listening and proceed to the existing-PR check
(`fetchBatchCommitsCmd`); otherwise keep listening while results are
pending and the select screen is shown. -/
def handleBatchRepoCommitResult (m : ScanModel) (index : Nat)
    (commits : List CommitInfo) : ScanModel × BatchCmd :=
  let m := storeCommitResult m index commits
  if m.screen = .loading ∧ m.batchResultsChanOpen then
    if allSelectedDone m.batchSelected m.batchRepoCommits then
      let m := cancelBatchFetch m
      ({ m with loadingMessage := "Checking for existing PRs..." }, .fetchBatchCommits)
    else (m, .listenForBatchCommits)
  else if 0 < m.batchFetchPending ∧ m.screen = .batchRepoSelect ∧ m.batchResultsChanOpen then
    (m, .listenForBatchCommits)
  else (m, .noCmd)

/-- The `Tab`/`Enter` branch of `handleBatchRepoSelectKey`: refuse an empty
selection; if some selected repository is still loading, wait on the
loading screen and keep listening; otherwise cancel the remaining
background fetches and proceed to the existing-PR check.  (Setting the
default PR title does not interact with the scan session and is omitted.) -/
def handleBatchRepoSelectEnter (m : ScanModel) : ScanModel × BatchCmd :=
  let count := m.batchSelected.count true
  if count = 0 then (m, .noCmd)
  else
    let loadingCount := ((List.range m.batchSelected.length).filter fun i =>
      m.batchSelected.getD i false
        && decide (i < m.batchRepoCommits.length)
        && (m.batchRepoCommits.getD i none).isNone).length
    if 0 < loadingCount then
      ({ m with
          screen := .loading,
          loadingMessage := "Waiting for " ++ toString loadingCount ++ " repo(s) to finish..." },
        .listenForBatchCommits)
    else
      let m := cancelBatchFetch m
      ({ m with screen := .loading, loadingMessage := "Checking for existing PRs..." },
        .fetchBatchCommits)

/-- Concrete model for the C4 witness: the spec scenario of 10
repositories with 3 selected; the two first selected ones have reported,
the receipt of index 2 is the last awaited one. -/
def c4Model : ScanModel :=
  { screen := .loading,
    batchRepoCommits :=
      [some [], some [{ Hash := "abc1234", Message := "feat: x", Tickets := [] }],
       none, none, none, none, none, none, none, none],
    batchSelected := [true, true, true, false, false, false, false, false, false, false],
    batchFetchPending := 8,
    batchResultsChanOpen := true,
    batchFetchCancelSet := true,
    cancelTriggered := false,
    loadingMessage := "Waiting for 1 repo(s) to finish..." }


/-! ## Definitions: scan session concurrency (`loadBatchReposCmd`)

The goroutine/channel structure of one scan session, as a labelled
transition system.  `loadBatchReposCmd` spawns one worker goroutine per
repository; a join goroutine runs `defer close(resultsChan)` after
`wg.Wait()`; the consumer may invoke the shared `context.CancelFunc` and
drain the buffered channel.  Each worker body is:

1. `select ctx.Done / default` — a nonblocking check: when cancellation
   has fired the `ctx.Done` case is ready and is taken (`default` fires
   only when no case is ready), so the worker returns without publishing;
2. the fetch + diff work (its failure is swallowed into empty commits and
   does not change the communication structure);
3. `select ctx.Done / resultsChan <- result` — when cancellation has fired
   and the buffer has room, both cases are ready and Go chooses between
   them pseudo-randomly, so publishing is still possible; a worker
   blocked on a full buffer is released by cancellation.
-/

/-- Phase of one scan worker goroutine. -/
inductive WorkerPhase where
  | atStart
  | running
  | ready
  | done (published : Bool)
deriving DecidableEq, Repr

/-- The shared state of one scan session: one phase per worker, the
buffered channel contents (worker indices), whether the channel has been
closed, and whether the shared context has been cancelled. -/
structure SessionState where
  workers : List WorkerPhase
  buffer : List Nat
  closed : Bool
  cancelled : Bool
deriving DecidableEq, Repr

/-- The atomic actions of a scan session. -/
inductive SessionLabel where
  | checkPass (i : Nat)
  | checkCancelled (i : Nat)
  | compute (i : Nat)
  | publish (i : Nat)
  | discard (i : Nat)
  | cancel
  | receive (i : Nat)
  | close
deriving DecidableEq, Repr

/-- One step of the session (`cap` is the channel capacity).
`checkPass`/`checkCancelled` is the initial nonblocking select (it is
deterministic); `publish`/`discard` are the branches of the final select
(`publish` requires only a non-full buffer — Go does not prioritise the
`ctx.Done` case — while `discard` requires cancellation); `close` is the
single `defer close(resultsChan)` executed once `wg.Wait()` returns, i.e.
only when every worker is done; `cancel` is the consumer invoking the
cancellation function; `receive` is the consumer draining one message. -/
inductive Step (cap : Nat) : SessionState → SessionLabel → SessionState → Prop where
  | checkPass {s : SessionState} {i : Nat} :
      s.workers[i]? = some .atStart → s.cancelled = false →
      Step cap s (.checkPass i) { s with workers := s.workers.set i .running }
  | checkCancelled {s : SessionState} {i : Nat} :
      s.workers[i]? = some .atStart → s.cancelled = true →
      Step cap s (.checkCancelled i) { s with workers := s.workers.set i (.done false) }
  | compute {s : SessionState} {i : Nat} :
      s.workers[i]? = some .running →
      Step cap s (.compute i) { s with workers := s.workers.set i .ready }
  | publish {s : SessionState} {i : Nat} :
      s.workers[i]? = some .ready → s.buffer.length < cap →
      Step cap s (.publish i)
        { s with workers := s.workers.set i (.done true), buffer := s.buffer ++ [i] }
  | discard {s : SessionState} {i : Nat} :
      s.workers[i]? = some .ready → s.cancelled = true →
      Step cap s (.discard i) { s with workers := s.workers.set i (.done false) }
  | cancel {s : SessionState} :
      s.cancelled = false →
      Step cap s .cancel { s with cancelled := true }
  | receive {s : SessionState} {i : Nat} {rest : List Nat} :
      s.buffer = i :: rest →
      Step cap s (.receive i) { s with buffer := rest }
  | close {s : SessionState} :
      (∀ w ∈ s.workers, ∃ b, w = .done b) → s.closed = false →
      Step cap s .close { s with closed := true }

/-- Finite executions of a session. -/
inductive Trace (cap : Nat) : SessionState → List SessionLabel → SessionState → Prop where
  | nil (s : SessionState) : Trace cap s [] s
  | cons {s s1 s2 : SessionState} {l : SessionLabel} {ls : List SessionLabel} :
      Step cap s l s1 → Trace cap s1 ls s2 → Trace cap s (l :: ls) s2

/-- Session start: one worker per repository, all at the initial check,
empty channel, not closed, not cancelled. -/
def initSession (n : Nat) : SessionState :=
  { workers := List.replicate n .atStart, buffer := [], closed := false, cancelled := false }

/-- Every worker has returned (`wg.Wait()` would unblock). -/
def AllDone (ws : List WorkerPhase) : Prop := ∀ w ∈ ws, ∃ b, w = .done b

instance (w : WorkerPhase) : Decidable (∃ b, w = WorkerPhase.done b) :=
  match w with
  | .done b => isTrue ⟨b, rfl⟩
  | .atStart => isFalse (fun ⟨_, h⟩ => WorkerPhase.noConfusion h)
  | .running => isFalse (fun ⟨_, h⟩ => WorkerPhase.noConfusion h)
  | .ready => isFalse (fun ⟨_, h⟩ => WorkerPhase.noConfusion h)

instance (ws : List WorkerPhase) : Decidable (AllDone ws) :=
  inferInstanceAs (Decidable (∀ w ∈ ws, ∃ b, w = WorkerPhase.done b))

/-- Concrete model for the selection-commit half of the C4 witness: both
entries have reported, the first repository is selected. -/
def c4DoneModel : ScanModel :=
  { screen := .batchRepoSelect,
    batchRepoCommits := [some [], some []],
    batchSelected := [true, false],
    batchFetchPending := 0,
    batchResultsChanOpen := true,
    batchFetchCancelSet := true,
    cancelTriggered := false,
    loadingMessage := "" }

/-! ## Theorems: string primitives -/

theorem natListLe_total : ∀ as bs : List Nat,
    natListLe as bs = true ∨ natListLe bs as = true := by
  intro as
  induction as with
  | nil => intro bs; left; rfl
  | cons a as ih =>
    intro bs
    cases bs with
    | nil => right; rfl
    | cons b bs =>
      by_cases hab : a < b
      · left; simp [natListLe, hab]
      · by_cases hba : b < a
        · right; simp [natListLe, hba]
        · rcases ih bs with h | h
          · left; simp [natListLe, hab, hba, h]
          · right; simp [natListLe, hab, hba, h]

theorem natListLe_trans : ∀ as bs cs : List Nat,
    natListLe as bs = true → natListLe bs cs = true → natListLe as cs = true := by
  intro as
  induction as with
  | nil => intro bs cs _ _; rfl
  | cons a as ih =>
    intro bs cs hab hbc
    cases bs with
    | nil => simp [natListLe] at hab
    | cons b bs =>
      cases cs with
      | nil => simp [natListLe] at hbc
      | cons c cs =>
        simp only [natListLe] at hab hbc ⊢
        split_ifs at hab hbc ⊢ <;>
          first
            | rfl
            | exact ih bs cs hab hbc
            | exact (Bool.false_ne_true hab).elim
            | exact (Bool.false_ne_true hbc).elim
            | (exfalso; omega)

instance : IsTotal String TicketLe := ⟨fun _ _ => natListLe_total _ _⟩

instance : IsTrans String TicketLe := ⟨fun _ _ _ hab hbc => natListLe_trans _ _ _ hab hbc⟩

theorem mem_sortStrings {a : String} {l : List String} :
    a ∈ sortStrings l ↔ a ∈ l :=
  (List.perm_insertionSort TicketLe l).mem_iff

theorem sortStrings_sorted (l : List String) :
    (sortStrings l).Sorted TicketLe :=
  List.sorted_insertionSort TicketLe l

theorem sortStrings_nodup {l : List String} (h : l.Nodup) :
    (sortStrings l).Nodup :=
  (List.perm_insertionSort TicketLe l).symm.nodup h

/-! ## Theorems: ticket extraction -/

theorem mem_extractTickets {t text} {re : TicketRegex} (h : t ∈ ExtractTickets text re) :
    ∃ findAll, re = some findAll ∧
      ∃ m ∈ findAll text, ∃ s, m[1]? = some s ∧ t = toUpperStr s := by
  match re with
  | none => simp [ExtractTickets] at h
  | some findAll =>
    refine ⟨findAll, rfl, ?_⟩
    simp only [ExtractTickets, mem_sortStrings, List.mem_dedup, List.mem_map,
      List.mem_filterMap] at h
    obtain ⟨s, ⟨m, hm, hs⟩, ht⟩ := h
    exact ⟨m, hm, s, hs, ht.symm⟩

/-- C8.  `GetAllTickets` returns the sorted, de-duplicated union of the
commits' tickets; when each commit's ticket list was produced by
`ExtractTickets` (as `GetCommitsBetween` does), every returned ticket is an
uppercase image.  The claim's concrete instance (messages carrying `att-2`,
`ATT-1`, `Att-2` aggregate to exactly `["ATT-1", "ATT-2"]`) is settled by
the witness below. -/
theorem getAllTickets_union_sorted (commits : List CommitInfo)
    (hext : ∀ c ∈ commits, ∃ text re, c.Tickets = ExtractTickets text re) :
    (∀ t, t ∈ GetAllTickets commits ↔ ∃ c ∈ commits, t ∈ c.Tickets)
    ∧ (GetAllTickets commits).Nodup
    ∧ (GetAllTickets commits).Sorted TicketLe
    ∧ (∀ t ∈ GetAllTickets commits, ∃ s, t = toUpperStr s) := by
  refine ⟨?_, ?_, sortStrings_sorted _, ?_⟩
  · intro t
    simp [GetAllTickets, mem_sortStrings, List.mem_dedup, List.mem_flatMap]
  · exact sortStrings_nodup (List.nodup_dedup _)
  · intro t ht
    rw [GetAllTickets, mem_sortStrings, List.mem_dedup, List.mem_flatMap] at ht
    obtain ⟨c, hc, htc⟩ := ht
    obtain ⟨text, re, hre⟩ := hext c hc
    rw [hre] at htc
    obtain ⟨_, _, _, _, _, _, h⟩ := mem_extractTickets htc
    exact ⟨_, h⟩

/-- Witness for C8: the theorem applied at the spec's concrete instance,
together with the claimed exact output `["ATT-1", "ATT-2"]`. -/
theorem getAllTickets_union_sorted_witness :
    (∀ c ∈ c8Commits, ∃ text re, c.Tickets = ExtractTickets text re)
    ∧ (∀ t, t ∈ GetAllTickets c8Commits ↔ ∃ c ∈ c8Commits, t ∈ c.Tickets)
    ∧ GetAllTickets c8Commits = ["ATT-1", "ATT-2"] := by
  have hext : ∀ c ∈ c8Commits, ∃ text re, c.Tickets = ExtractTickets text re := by
    intro c hc
    simp only [c8Commits, List.mem_cons, List.not_mem_nil, or_false] at hc
    rcases hc with h | h | h <;> subst h
    · exact ⟨"feat: a att-2", some (fun _ => [["att-2", "att-2"]]), rfl⟩
    · exact ⟨"fix: b ATT-1", some (fun _ => [["ATT-1", "ATT-1"]]), rfl⟩
    · exact ⟨"chore: c Att-2", some (fun _ => [["Att-2", "Att-2"]]), rfl⟩
  exact ⟨hext, (getAllTickets_union_sorted c8Commits hext).1, by decide⟩

/-- C10.  `ExtractTickets` uses only the first capturing group: a `nil`
pattern yields `[]`; a pattern whose match slices carry no capturing group
(length 1) yields `[]` even though the pattern matched; and every returned
ticket is the uppercased first capturing group of some match. -/
theorem extractTickets_first_group_only (text : String)
    (findAll : String → List (List String))
    (hng : ∀ m ∈ findAll text, m.length ≤ 1) :
    ExtractTickets text none = []
    ∧ ExtractTickets text (some findAll) = []
    ∧ (∀ f t, t ∈ ExtractTickets text (some f) →
        ∃ m ∈ f text, ∃ s, m[1]? = some s ∧ t = toUpperStr s) := by
  refine ⟨rfl, ?_, ?_⟩
  · have hnone : (findAll text).filterMap (fun m => m[1]?) = [] := by
      rw [List.filterMap_eq_nil_iff]
      intro m hm
      have := hng m hm
      rw [List.getElem?_eq_none_iff]
      omega
    simp [ExtractTickets, hnone, sortStrings]
  · intro f t ht
    obtain ⟨g, hg, hrest⟩ := mem_extractTickets ht
    obtain rfl : g = f := by injection hg.symm
    exact hrest

/-- Witness for C10: a pattern that matches twice but has no capturing
group extracts nothing. -/
theorem extractTickets_first_group_only_witness :
    (∀ m ∈ c10FindAll "att-7 att-9", m.length ≤ 1)
    ∧ ExtractTickets "att-7 att-9" none = []
    ∧ ExtractTickets "att-7 att-9" (some c10FindAll) = [] :=
  ⟨by decide,
   (extractTickets_first_group_only "att-7 att-9" c10FindAll (by decide)).1,
   (extractTickets_first_group_only "att-7 att-9" c10FindAll (by decide)).2.1⟩

/-! ## Theorems: the pre-order walk computes ancestry -/

theorem repoLog_subset (g : Graph) : ∀ stack seen : List Nat,
    seen ⊆ repoLog g stack seen := by
  intro stack seen
  induction stack, seen using repoLog.induct g with
  | case1 seen => rw [repoLog]; exact fun _ h => h
  | case2 seen x rest h ih => rw [repoLog, dif_pos h]; exact ih
  | case3 seen x rest h ih =>
    rw [repoLog, dif_neg h]
    exact fun a ha => ih (List.mem_cons_of_mem x ha)

theorem repoLog_sound (g : Graph) : ∀ stack seen : List Nat, ∀ y ∈ repoLog g stack seen,
    y ∈ seen ∨ ∃ s ∈ stack, Reaches g s y := by
  intro stack seen
  induction stack, seen using repoLog.induct g with
  | case1 seen => intro y hy; rw [repoLog] at hy; exact Or.inl hy
  | case2 seen x rest h ih =>
    intro y hy
    rw [repoLog, dif_pos h] at hy
    rcases ih y hy with h' | ⟨s, hs, hr⟩
    · exact Or.inl h'
    · exact Or.inr ⟨s, List.mem_cons_of_mem x hs, hr⟩
  | case3 seen x rest h ih =>
    intro y hy
    rw [repoLog, dif_neg h] at hy
    rcases ih y hy with h' | ⟨s, hs, hr⟩
    · rcases List.mem_cons.mp h' with rfl | h''
      · exact Or.inr ⟨y, List.mem_cons_self _ _, Reaches.refl y⟩
      · exact Or.inl h''
    · rcases List.mem_append.mp hs with hp | hr'
      · exact Or.inr ⟨x, List.mem_cons_self _ _, Reaches.step hp hr⟩
      · exact Or.inr ⟨s, List.mem_cons_of_mem x hr', hr⟩

theorem repoLog_mem_nodes (g : Graph) : ∀ stack seen : List Nat, ∀ y ∈ repoLog g stack seen,
    y ∈ seen ∨ y ∈ g.nodes := by
  intro stack seen
  induction stack, seen using repoLog.induct g with
  | case1 seen => intro y hy; rw [repoLog] at hy; exact Or.inl hy
  | case2 seen x rest h ih => intro y hy; rw [repoLog, dif_pos h] at hy; exact ih y hy
  | case3 seen x rest h ih =>
    intro y hy
    rw [repoLog, dif_neg h] at hy
    push_neg at h
    rcases ih y hy with h' | h'
    · rcases List.mem_cons.mp h' with rfl | h''
      · exact Or.inr h.2
      · exact Or.inl h''
    · exact Or.inr h'

theorem repoLog_nodup (g : Graph) : ∀ stack seen : List Nat, seen.Nodup →
    (repoLog g stack seen).Nodup := by
  intro stack seen
  induction stack, seen using repoLog.induct g with
  | case1 seen => intro h; rw [repoLog]; exact h
  | case2 seen x rest h ih => intro hn; rw [repoLog, dif_pos h]; exact ih hn
  | case3 seen x rest h ih =>
    intro hn
    rw [repoLog, dif_neg h]
    push_neg at h
    exact ih (List.nodup_cons.mpr ⟨h.1, hn⟩)

theorem TInv_skip {g : Graph} {x : Nat} {rest seen : List Nat}
    (hinv : TInv g (x :: rest) seen) (h : x ∈ seen ∨ x ∉ g.nodes) : TInv g rest seen := by
  intro t ht p hp hpn
  rcases hinv t ht p hp hpn with h' | h'
  · exact Or.inl h'
  · rcases List.mem_cons.mp h' with rfl | h''
    · rcases h with hx | hx
      · exact Or.inl hx
      · exact absurd hpn hx
    · exact Or.inr h''

theorem TInv_visit {g : Graph} {x : Nat} {rest seen : List Nat}
    (hinv : TInv g (x :: rest) seen) : TInv g (g.parentsOf x ++ rest) (x :: seen) := by
  intro t ht p hp hpn
  rcases List.mem_cons.mp ht with rfl | ht'
  · exact Or.inr (List.mem_append.mpr (Or.inl hp))
  · rcases hinv t ht' p hp hpn with h' | h'
    · exact Or.inl (List.mem_cons_of_mem x h')
    · rcases List.mem_cons.mp h' with rfl | h''
      · exact Or.inl (List.mem_cons_self p seen)
      · exact Or.inr (List.mem_append.mpr (Or.inr h''))

theorem repoLog_stack_mem (g : Graph) : ∀ stack seen : List Nat, TInv g stack seen →
    ∀ s ∈ stack, s ∈ g.nodes → s ∈ repoLog g stack seen := by
  intro stack seen
  induction stack, seen using repoLog.induct g with
  | case1 seen => intro _ s hs _; exact absurd hs (List.not_mem_nil s)
  | case2 seen x rest h ih =>
    intro hinv s hs hsn
    rw [repoLog, dif_pos h]
    rcases List.mem_cons.mp hs with rfl | hs'
    · rcases h with hx | hx
      · exact repoLog_subset g rest seen hx
      · exact absurd hsn hx
    · exact ih (TInv_skip hinv h) s hs' hsn
  | case3 seen x rest h ih =>
    intro hinv s hs hsn
    rw [repoLog, dif_neg h]
    rcases List.mem_cons.mp hs with rfl | hs'
    · exact repoLog_subset g _ _ (List.mem_cons_self s seen)
    · exact ih (TInv_visit hinv) s (List.mem_append.mpr (Or.inr hs')) hsn

theorem repoLog_closed (g : Graph) : ∀ stack seen : List Nat, TInv g stack seen →
    ∀ s ∈ repoLog g stack seen, ∀ p ∈ g.parentsOf s, p ∈ g.nodes →
      p ∈ repoLog g stack seen := by
  intro stack seen
  induction stack, seen using repoLog.induct g with
  | case1 seen =>
    intro hinv s hs p hp hpn
    rw [repoLog] at hs ⊢
    rcases hinv s hs p hp hpn with h' | h'
    · exact h'
    · exact absurd h' (List.not_mem_nil p)
  | case2 seen x rest h ih =>
    intro hinv s hs p hp hpn
    rw [repoLog, dif_pos h] at hs ⊢
    exact ih (TInv_skip hinv h) s hs p hp hpn
  | case3 seen x rest h ih =>
    intro hinv s hs p hp hpn
    rw [repoLog, dif_neg h] at hs ⊢
    exact ih (TInv_visit hinv) s hs p hp hpn

theorem mem_of_reaches_closed {g : Graph} {L : List Nat} (hwf : g.WF)
    (hsub : ∀ s ∈ L, s ∈ g.nodes)
    (hcl : ∀ s ∈ L, ∀ p ∈ g.parentsOf s, p ∈ g.nodes → p ∈ L)
    {a b : Nat} (hr : Reaches g a b) (ha : a ∈ L) : b ∈ L := by
  induction hr with
  | refl a => exact ha
  | step hp _ ih =>
    rename_i a' b' c' _
    exact ih (hcl a' ha b' hp (hwf a' (hsub a' ha) b' hp))

theorem mem_repoLog_iff {g : Graph} (hwf : g.WF) {s : Nat} (hs : s ∈ g.nodes) (y : Nat) :
    y ∈ repoLog g [s] [] ↔ Reaches g s y := by
  constructor
  · intro hy
    rcases repoLog_sound g [s] [] y hy with h | ⟨t, ht, hr⟩
    · exact absurd h (List.not_mem_nil y)
    · rcases List.mem_cons.mp ht with rfl | h'
      · exact hr
      · exact absurd h' (List.not_mem_nil t)
  · intro hr
    have hinv : TInv g [s] [] := fun t ht => absurd ht (List.not_mem_nil t)
    have hmem : s ∈ repoLog g [s] [] :=
      repoLog_stack_mem g [s] [] hinv s (List.mem_cons_self s []) hs
    have hsub : ∀ t ∈ repoLog g [s] [], t ∈ g.nodes := by
      intro t ht
      rcases repoLog_mem_nodes g [s] [] t ht with h | h
      · exact absurd h (List.not_mem_nil t)
      · exact h
    exact mem_of_reaches_closed hwf hsub (repoLog_closed g [s] [] hinv) hr hmem

/-- C1.  On a well-formed repository whose base and head remote refs both
resolve, `GetCommitsBetween` succeeds and returns exactly the commits
reachable from the head ref that are not reachable from the base ref
(following all parent edges on both walks, so it does not stop at the
first base-reachable commit), with no commit emitted twice, in head-walk
pre-order with first-seen wins (the output is a sublist of the head-walk
visit order). -/
theorem getCommitsBetween_diff_exact (r : Repo) (baseBranch headBranch : String)
    (baseHash headHash : Nat)
    (hwf : r.graph.WF)
    (hbase : r.resolveRevision ("refs/remotes/origin/" ++ baseBranch) = some baseHash)
    (hhead : r.resolveRevision ("refs/remotes/origin/" ++ headBranch) = some headHash)
    (hbn : baseHash ∈ r.graph.nodes) (hhn : headHash ∈ r.graph.nodes) :
    ∃ out, GetCommitsBetween r baseBranch headBranch = .ok out
      ∧ (∀ c, c ∈ out ↔ Reaches r.graph headHash c ∧ ¬ Reaches r.graph baseHash c)
      ∧ out.Nodup
      ∧ out.Sublist (repoLog r.graph [headHash] []).reverse := by
  refine ⟨((repoLog r.graph [headHash] []).reverse).filter
      (fun c => decide (c ∉ repoLog r.graph [baseHash] [])), ?_, ?_, ?_, ?_⟩
  · simp only [GetCommitsBetween, hbase, hhead]
  · intro c
    rw [List.mem_filter, List.mem_reverse, decide_eq_true_iff,
      mem_repoLog_iff hwf hhn, mem_repoLog_iff hwf hbn]
  · exact (List.nodup_reverse.mpr (repoLog_nodup r.graph [headHash] [] List.nodup_nil)).filter _
  · exact List.filter_sublist _

/-- Witness for C1 on a merge-commit DAG that straddles the base-reachable
boundary: head commit 4 is a merge whose parent 1 is the base tip and whose
parent 3 is head-only; the characterisation shows 3 is still emitted. -/
theorem getCommitsBetween_diff_exact_witness :
    c1Repo.graph.WF
    ∧ (∃ out, GetCommitsBetween c1Repo "main" "staging" = .ok out
        ∧ (∀ c, c ∈ out ↔ Reaches c1Repo.graph 4 c ∧ ¬ Reaches c1Repo.graph 1 c)
        ∧ out.Nodup
        ∧ out.Sublist (repoLog c1Repo.graph [4] []).reverse) :=
  ⟨by decide,
   getCommitsBetween_diff_exact c1Repo "main" "staging" 1 4 (by decide) (by decide)
     (by decide) (by decide) (by decide)⟩

/-- C9.  When a remote ref fails to resolve, `GetCommitsBetween` returns
the distinguishable `BranchNotFoundError` value naming exactly the missing
branch (base checked first, then head), never the generic `GitError`; its
message names the branch. -/
theorem branch_not_found_error (r : Repo) (baseBranch headBranch : String) :
    (r.resolveRevision ("refs/remotes/origin/" ++ baseBranch) = none →
      GetCommitsBetween r baseBranch headBranch = .error (.branchNotFound [baseBranch]))
    ∧ (∀ baseHash, r.resolveRevision ("refs/remotes/origin/" ++ baseBranch) = some baseHash →
        r.resolveRevision ("refs/remotes/origin/" ++ headBranch) = none →
        GetCommitsBetween r baseBranch headBranch = .error (.branchNotFound [headBranch]))
    ∧ (GitErr.branchNotFound [baseBranch]).message
        = "Branch not found on remote: " ++ baseBranch
    ∧ ∀ cmd out, GitErr.branchNotFound [baseBranch] ≠ GitErr.gitError cmd out := by
  refine ⟨?_, ?_, rfl, ?_⟩
  · intro h
    simp only [GetCommitsBetween, h]
  · intro baseHash h1 h2
    simp only [GetCommitsBetween, h1, h2]
  · intro cmd out h
    exact GitErr.noConfusion h

/-- Witness for C9: in a repository where only `main` exists, asking for
base `staging` yields `BranchNotFoundError{["staging"]}`. -/
theorem branch_not_found_error_witness :
    c9Repo.resolveRevision ("refs/remotes/origin/" ++ "staging") = none
    ∧ GetCommitsBetween c9Repo "staging" "main" = .error (.branchNotFound ["staging"]) :=
  ⟨by decide, (branch_not_found_error c9Repo "staging" "main").1 (by decide)⟩

/-! ## Theorems: batch pipeline -/

theorem getD_true_lt {selected : List Bool} {i : Nat}
    (h : selected.getD i false = true) : i < selected.length := by
  by_contra hge
  rw [List.getD_eq_default selected false (Nat.le_of_not_lt hge)] at h
  exact Bool.false_ne_true h

theorem startBatch_isSome (repos : List RepoInfo) (selected : List Bool)
    (dryRun : Bool) (prType : Option PrType) (prTitle : String)
    (oracle : Nat → StepOracle) {i : Nat} (h : i < repos.length) :
    ∃ res, startBatchProcessingCmd repos selected dryRun prType prTitle oracle i
      = some res := by
  have hrepo : repos[i]? = some repos[i] := List.getElem?_eq_getElem h
  rw [startBatchProcessingCmd, hrepo]
  dsimp only
  repeat' first
    | exact ⟨_, rfl⟩
    | split

theorem startBatch_none_of_ge (repos : List RepoInfo) (selected : List Bool)
    (dryRun : Bool) (prType : Option PrType) (prTitle : String)
    (oracle : Nat → StepOracle) {i : Nat} (h : repos.length ≤ i) :
    startBatchProcessingCmd repos selected dryRun prType prTitle oracle i = none := by
  have hrepo : repos[i]? = none := List.getElem?_eq_none h
  rw [startBatchProcessingCmd, hrepo]

theorem startBatch_not_selected (repos : List RepoInfo) (selected : List Bool)
    (dryRun : Bool) (prType : Option PrType) (prTitle : String)
    (oracle : Nat → StepOracle) {i : Nat} {repo : RepoInfo}
    (hrepo : repos[i]? = some repo) (hns : selected.getD i false = false) :
    startBatchProcessingCmd repos selected dryRun prType prTitle oracle i
      = some { Repo := repo, Status := .skipped "Not selected" } := by
  rw [startBatchProcessingCmd, hrepo]
  dsimp only
  rw [if_pos (Or.inr hns)]

theorem startBatch_selected_kept (repos : List RepoInfo) (selected : List Bool)
    (dryRun : Bool) (prType : Option PrType) (prTitle : String)
    (oracle : Nat → StepOracle) {i : Nat} {res : BatchResult}
    (hsel : selected.getD i false = true)
    (h : startBatchProcessingCmd repos selected dryRun prType prTitle oracle i = some res) :
    IsStatusSkipped res.Status = false ∨ GetStatusReason res.Status ≠ "Not selected" := by
  have hlt : i < selected.length := getD_true_lt hsel
  rw [startBatchProcessingCmd] at h
  dsimp only at h
  split at h
  · exact absurd h (by simp)
  · rw [if_neg (by
        push_neg
        refine ⟨hlt, fun hx => ?_⟩
        rw [hsel] at hx
        exact Bool.noConfusion hx)] at h
    split at h
    · cases h; exact Or.inl rfl
    · split at h
      · cases h; exact Or.inl rfl
      · split at h
        · cases h; exact Or.inl rfl
        · split at h
          · cases h; exact Or.inl rfl
          · split at h
            · cases h; exact Or.inr (by simp [GetStatusReason])
            · split at h
              · cases h; exact Or.inl rfl
              · cases h
                exact Or.inl (by dsimp only; split <;> rfl)

theorem recordStep_selected (repos : List RepoInfo) (selected : List Bool)
    (dryRun : Bool) (prType : Option PrType) (prTitle : String)
    (oracle : Nat → StepOracle) {j : Nat}
    (hsel : selected.getD j false = true) :
    recordStep repos selected dryRun prType prTitle oracle j
      = startBatchProcessingCmd repos selected dryRun prType prTitle oracle j := by
  rw [recordStep]
  rcases hs : startBatchProcessingCmd repos selected dryRun prType prTitle oracle j with _ | res
  · rfl
  · exact if_pos (startBatch_selected_kept repos selected dryRun prType prTitle oracle hsel hs)

theorem recordStep_not_selected (repos : List RepoInfo) (selected : List Bool)
    (dryRun : Bool) (prType : Option PrType) (prTitle : String)
    (oracle : Nat → StepOracle) {j : Nat} (hj : j < repos.length)
    (hns : selected.getD j false = false) :
    recordStep repos selected dryRun prType prTitle oracle j = none := by
  have hrepo : repos[j]? = some repos[j] := List.getElem?_eq_getElem hj
  rw [recordStep, startBatch_not_selected repos selected dryRun prType prTitle oracle hrepo hns]
  simp [IsStatusSkipped, GetStatusReason]

theorem recordResult_eq (results : List BatchResult) (res : BatchResult) :
    recordResult results res
      = results ++ (if IsStatusSkipped res.Status = false
          ∨ GetStatusReason res.Status ≠ "Not selected" then [res] else []) := by
  rw [recordResult]
  split <;> simp

theorem runBatchAux_eq (repos : List RepoInfo) (selected : List Bool) (dryRun : Bool)
    (prType : Option PrType) (prTitle : String) (oracle : Nat → StepOracle) :
    ∀ fuel i results, repos.length - i ≤ fuel →
      runBatchAux repos selected dryRun prType prTitle oracle fuel i results
        = results ++ (List.range' i (repos.length - i)).filterMap
            (recordStep repos selected dryRun prType prTitle oracle) := by
  intro fuel
  induction fuel with
  | zero =>
    intro i results hfuel
    rw [Nat.le_zero] at hfuel
    rw [runBatchAux, hfuel]
    simp
  | succ fuel ih =>
    intro i results hfuel
    rw [runBatchAux]
    by_cases hi : repos.length ≤ i
    · rw [startBatch_none_of_ge repos selected dryRun prType prTitle oracle hi,
        Nat.sub_eq_zero_of_le hi]
      simp
    · push_neg at hi
      obtain ⟨res, hres⟩ :=
        startBatch_isSome repos selected dryRun prType prTitle oracle hi
      rw [hres]
      dsimp only
      have hstep : recordStep repos selected dryRun prType prTitle oracle i
          = if IsStatusSkipped res.Status = false
              ∨ GetStatusReason res.Status ≠ "Not selected" then some res else none := by
        rw [recordStep, hres]
      have hrange : repos.length - i = (repos.length - (i + 1)) + 1 := by omega
      by_cases hend : repos.length ≤ i + 1
      · have hone : repos.length - i = 1 := by omega
        rw [if_pos hend, hone, recordResult_eq]
        simp only [List.range'_one, List.filterMap_cons, List.filterMap_nil, hstep]
        split <;> simp
      · rw [if_neg hend, ih (i + 1) (recordResult results res) (by omega),
          recordResult_eq, hrange, List.range'_succ, List.filterMap_cons, hstep]
        split <;> simp

theorem runBatch_eq (repos : List RepoInfo) (selected : List Bool) (dryRun : Bool)
    (prType : Option PrType) (prTitle : String) (oracle : Nat → StepOracle) :
    runBatch repos selected dryRun prType prTitle oracle
      = (List.range repos.length).filterMap
          (recordStep repos selected dryRun prType prTitle oracle) := by
  rw [runBatch, runBatchAux_eq repos selected dryRun prType prTitle oracle
    repos.length 0 [] (by omega)]
  simp [List.range_eq_range']

/-- C6.  The batch loop never aborts: it visits every repository index in
the original list order, records exactly one outcome per selected
repository (a step failure is recorded as that repository's own
`Failed(error)` outcome and the loop advances), and suppresses only the
`Skipped("Not selected")` bookkeeping entries of unselected repositories.
The last conjunct is the spec's instance: 5 selected repositories where
repository 3 throws on fetch still produce 5 outcomes in original order,
with repository 3 `Failed` and the others unaffected. -/
theorem batch_outcomes_per_selected (repos : List RepoInfo) (selected : List Bool)
    (dryRun : Bool) (prType : Option PrType) (prTitle : String)
    (oracle : Nat → StepOracle) :
    runBatch repos selected dryRun prType prTitle oracle
      = (List.range repos.length).filterMap (fun i =>
          if selected.getD i false = true then
            startBatchProcessingCmd repos selected dryRun prType prTitle oracle i
          else none)
    ∧ (∀ i, i < repos.length → selected.getD i false = true →
        ∃ res, startBatchProcessingCmd repos selected dryRun prType prTitle oracle i
          = some res)
    ∧ (runBatch repos selected dryRun prType prTitle oracle).length
        = ((List.range repos.length).filter (fun i => selected.getD i false)).length
    ∧ runBatch c6Repos [true, true, true, true, true] false (some .stagingToMain) "t" c6Oracle
      = [{ Repo := { Path := "p1", DisplayName := "r1", MainBranch := "main" }, Status := .created,
           PrURL := some "https://github.com/x/pull/1", Tickets := ["ATT-1"] },
         { Repo := { Path := "p2", DisplayName := "r2", MainBranch := "main" }, Status := .created,
           PrURL := some "https://github.com/x/pull/1", Tickets := ["ATT-1"] },
         { Repo := { Path := "p3", DisplayName := "r3", MainBranch := "main" },
           Status := .failed "git fetch: network unreachable" },
         { Repo := { Path := "p4", DisplayName := "r4", MainBranch := "master" }, Status := .created,
           PrURL := some "https://github.com/x/pull/1", Tickets := ["ATT-1"] },
         { Repo := { Path := "p5", DisplayName := "r5", MainBranch := "main" }, Status := .created,
           PrURL := some "https://github.com/x/pull/1", Tickets := ["ATT-1"] }] := by
  have hmain : runBatch repos selected dryRun prType prTitle oracle
      = (List.range repos.length).filterMap (fun i =>
          if selected.getD i false = true then
            startBatchProcessingCmd repos selected dryRun prType prTitle oracle i
          else none) := by
    rw [runBatch_eq]
    apply List.filterMap_congr
    intro j hj
    have hjlt : j < repos.length := List.mem_range.mp hj
    rcases hsel : selected.getD j false with _ | _
    · simp only [Bool.false_eq_true, if_false]
      exact recordStep_not_selected repos selected dryRun prType prTitle oracle hjlt hsel
    · simp only [if_true]
      exact recordStep_selected repos selected dryRun prType prTitle oracle hsel
  refine ⟨hmain, ?_, ?_, by decide⟩
  · intro i hi _
    exact startBatch_isSome repos selected dryRun prType prTitle oracle hi
  · rw [hmain]
    rw [List.length_filterMap_eq_countP, ← List.countP_eq_length_filter]
    apply List.countP_congr
    intro j hj
    have hjlt : j < (List.range repos.length).length := List.mem_range.mp hj |>.trans_eq
      (List.length_range repos.length).symm
    rcases hsel : selected.getD j false with _ | _
    · simp [hsel]
    · obtain ⟨res, hres⟩ := startBatch_isSome repos selected dryRun prType prTitle oracle
        (List.mem_range.mp hj)
      simp [hsel, hres]

/-- C7.  A selected repository whose fetch succeeds and whose computed diff
has zero commits gets exactly the outcome `Skipped("No commits to merge")`
— never `Failed` and never `Created`. -/
theorem zero_commits_skipped (repos : List RepoInfo) (selected : List Bool)
    (prTitle : String) (oracle : Nat → StepOracle) (prType : PrType)
    {repoIndex : Nat} {repo : RepoInfo}
    (hrepo : repos[repoIndex]? = some repo)
    (hsel : selected.getD repoIndex false = true)
    (hfetch : (oracle repoIndex).fetchBranches prType.HeadBranch
        (prType.BaseBranch repo.MainBranch) = .ok ())
    (hcommits : (oracle repoIndex).getCommitsBetween
        (prType.BaseBranch repo.MainBranch) prType.HeadBranch = .ok []) :
    startBatchProcessingCmd repos selected false (some prType) prTitle oracle repoIndex
      = some { Repo := repo, Status := .skipped "No commits to merge" }
    ∧ IsStatusSkipped (BatchStatus.skipped "No commits to merge") = true
    ∧ IsStatusFailed (BatchStatus.skipped "No commits to merge") = false
    ∧ IsStatusCreated (BatchStatus.skipped "No commits to merge") = false := by
  have hlt : repoIndex < selected.length := getD_true_lt hsel
  refine ⟨?_, rfl, rfl, rfl⟩
  rw [startBatchProcessingCmd, hrepo]
  dsimp only
  rw [if_neg (by
      push_neg
      refine ⟨hlt, fun hx => ?_⟩
      rw [hsel] at hx
      exact Bool.noConfusion hx),
    if_neg (by exact Bool.false_ne_true)]
  rw [hfetch]
  dsimp only
  rw [hcommits]
  rfl

/-- Witness for C7: a two-repository fleet, repository 0 selected, fetch
succeeding and an empty diff. -/
theorem zero_commits_skipped_witness :
    ([{ Path := "p1", DisplayName := "r1", MainBranch := "main" },
      { Path := "p2", DisplayName := "r2", MainBranch := "main" }]
        : List RepoInfo)[0]?
      = some { Path := "p1", DisplayName := "r1", MainBranch := "main" }
    ∧ startBatchProcessingCmd
        [{ Path := "p1", DisplayName := "r1", MainBranch := "main" },
         { Path := "p2", DisplayName := "r2", MainBranch := "main" }]
        [true, false] false (some .stagingToMain) "staging → main" c7Oracle 0
      = some { Repo := { Path := "p1", DisplayName := "r1", MainBranch := "main" },
               Status := .skipped "No commits to merge" } :=
  ⟨by decide,
   (zero_commits_skipped
      [{ Path := "p1", DisplayName := "r1", MainBranch := "main" },
       { Path := "p2", DisplayName := "r2", MainBranch := "main" }]
      [true, false] "staging → main" c7Oracle .stagingToMain
      (by decide) (by decide) rfl rfl).1⟩

/-! ## Theorems: result stream sizing (C5) -/

/-- C5 counterexample.  The claim "for every set of repositories handed to
a scan session, the bounded result stream is sized to accommodate all
workers plus one" is false on the code: `selectPrType` always allocates
capacity 50, so a fleet of 50 repositories (one worker each) already
violates `workers + 1 ≤ capacity`. -/
theorem chan_capacity_not_workers_plus_one :
    ¬ (∀ repos : List RepoInfo, scanWorkerCount repos + 1 ≤ batchResultsChanCapacity) :=
  fun h => absurd (h c5Repos) (by decide)

/-- C5 amended.  The result stream has the fixed capacity 50, which
accommodates all workers plus one exactly for fleets of at most 49
repositories. -/
theorem chan_capacity_small_fleet (repos : List RepoInfo) (h : repos.length ≤ 49) :
    scanWorkerCount repos + 1 ≤ batchResultsChanCapacity := by
  simp only [scanWorkerCount, batchResultsChanCapacity]
  omega

/-- Witness for the amended C5 at a 3-repository fleet. -/
theorem chan_capacity_small_fleet_witness :
    c5SmallRepos.length ≤ 49
    ∧ scanWorkerCount c5SmallRepos + 1 ≤ batchResultsChanCapacity :=
  ⟨by decide, chan_capacity_small_fleet c5SmallRepos (by decide)⟩

/-! ## Theorems: early cancellation of the scan session (C4) -/

theorem storeCommitResult_screen (m : ScanModel) (index : Nat) (commits : List CommitInfo) :
    (storeCommitResult m index commits).screen = m.screen := by
  rw [storeCommitResult]
  split <;> rfl

theorem storeCommitResult_selected (m : ScanModel) (index : Nat) (commits : List CommitInfo) :
    (storeCommitResult m index commits).batchSelected = m.batchSelected := by
  rw [storeCommitResult]
  split <;> rfl

theorem storeCommitResult_chanOpen (m : ScanModel) (index : Nat) (commits : List CommitInfo) :
    (storeCommitResult m index commits).batchResultsChanOpen = m.batchResultsChanOpen := by
  rw [storeCommitResult]
  split <;> rfl

theorem storeCommitResult_cancelSet (m : ScanModel) (index : Nat) (commits : List CommitInfo) :
    (storeCommitResult m index commits).batchFetchCancelSet = m.batchFetchCancelSet := by
  rw [storeCommitResult]
  split <;> rfl

theorem storeCommitResult_cancelTriggered (m : ScanModel) (index : Nat)
    (commits : List CommitInfo) :
    (storeCommitResult m index commits).cancelTriggered = m.cancelTriggered := by
  rw [storeCommitResult]
  split <;> rfl

theorem loadingCount_zero_iff (selected : List Bool)
    (commitsArr : List (Option (List CommitInfo))) :
    ((List.range selected.length).filter fun i =>
      selected.getD i false && decide (i < commitsArr.length)
        && (commitsArr.getD i none).isNone).length = 0
    ↔ allSelectedDone selected commitsArr = true := by
  rw [List.length_eq_zero, List.filter_eq_nil_iff, allSelectedDone, List.all_eq_true]
  refine forall_congr' (fun i => imp_congr Iff.rfl ?_)
  rcases hsel : selected.getD i false <;>
    rcases hr : decide (i < commitsArr.length) <;>
      rcases ho : commitsArr.getD i none <;> simp [hsel, hr, ho]

/-- C4.  Once every selected repository's scan entry has left the pending
(`nil`) state, the pipeline triggers the cancellation token, stops
listening to the scan stream and proceeds to checking existing PRs: at
selection-commit time (first conjunct, `handleBatchRepoSelectKey`), or on
receipt of the last awaited incremental result (second conjunct,
`handleBatchRepoCommitResult`); while some selected entry is pending the
handler keeps listening without cancelling (third conjunct); and whether
the pipeline proceeds never depends on unselected repositories' entries
(fourth conjunct), so no unselected in-flight work is waited for. -/
theorem selected_done_triggers_cancel (m : ScanModel) (index : Nat)
    (commits : List CommitInfo) :
    (m.batchSelected.count true ≠ 0 →
      allSelectedDone m.batchSelected m.batchRepoCommits = true →
      m.batchFetchCancelSet = true →
      ∃ m2, handleBatchRepoSelectEnter m = (m2, .fetchBatchCommits)
        ∧ m2.cancelTriggered = true ∧ m2.batchResultsChanOpen = false
        ∧ m2.screen = .loading ∧ m2.loadingMessage = "Checking for existing PRs...")
    ∧ (m.screen = .loading → m.batchResultsChanOpen = true →
        m.batchFetchCancelSet = true →
        allSelectedDone m.batchSelected
          (storeCommitResult m index commits).batchRepoCommits = true →
        ∃ m2, handleBatchRepoCommitResult m index commits = (m2, .fetchBatchCommits)
          ∧ m2.cancelTriggered = true ∧ m2.batchResultsChanOpen = false
          ∧ m2.loadingMessage = "Checking for existing PRs...")
    ∧ (m.screen = .loading → m.batchResultsChanOpen = true →
        allSelectedDone m.batchSelected
          (storeCommitResult m index commits).batchRepoCommits = false →
        ∃ m2, handleBatchRepoCommitResult m index commits = (m2, .listenForBatchCommits)
          ∧ m2.cancelTriggered = m.cancelTriggered ∧ m2.batchResultsChanOpen = true)
    ∧ (∀ c1 c2 : List (Option (List CommitInfo)), c1.length = c2.length →
        (∀ i, i < m.batchSelected.length → m.batchSelected.getD i false = true →
          c1.getD i none = c2.getD i none) →
        allSelectedDone m.batchSelected c1 = allSelectedDone m.batchSelected c2) := by
  refine ⟨?_, ?_, ?_, ?_⟩
  · intro hcount hdone hcancel
    rw [handleBatchRepoSelectEnter]
    dsimp only
    rw [if_neg hcount]
    rw [if_neg (by
      rw [Nat.pos_iff_ne_zero, ne_eq, not_not]
      exact (loadingCount_zero_iff m.batchSelected m.batchRepoCommits).mpr hdone)]
    refine ⟨_, rfl, ?_, ?_, rfl, rfl⟩
    · simp [cancelBatchFetch, hcancel]
    · simp [cancelBatchFetch]
  · intro hscreen hopen hcancel hdone
    rw [handleBatchRepoCommitResult]
    dsimp only
    rw [if_pos (by
        rw [storeCommitResult_screen, storeCommitResult_chanOpen]
        exact ⟨hscreen, hopen⟩),
      storeCommitResult_selected, if_pos hdone]
    refine ⟨_, rfl, ?_, ?_, rfl⟩
    · simp [cancelBatchFetch, storeCommitResult_cancelSet, hcancel]
    · simp [cancelBatchFetch]
  · intro hscreen hopen hnotdone
    rw [handleBatchRepoCommitResult]
    dsimp only
    rw [if_pos (by
        rw [storeCommitResult_screen, storeCommitResult_chanOpen]
        exact ⟨hscreen, hopen⟩),
      storeCommitResult_selected, if_neg (by rw [hnotdone]; exact Bool.false_ne_true)]
    exact ⟨_, rfl, storeCommitResult_cancelTriggered m index commits,
      (storeCommitResult_chanOpen m index commits).trans hopen⟩
  · intro c1 c2 hlen hsel
    rw [allSelectedDone, allSelectedDone]
    have hp : ∀ i ∈ List.range m.batchSelected.length,
        (!(m.batchSelected.getD i false) || !(decide (i < c1.length))
          || (c1.getD i none).isSome)
        = (!(m.batchSelected.getD i false) || !(decide (i < c2.length))
          || (c2.getD i none).isSome) := by
      intro i hi
      rcases hs : m.batchSelected.getD i false
      · simp
      · rw [hlen, hsel i (List.mem_range.mp hi) hs]
    rw [Bool.eq_iff_iff, List.all_eq_true, List.all_eq_true]
    constructor
    · intro h x hx
      rw [← hp x hx]
      exact h x hx
    · intro h x hx
      rw [hp x hx]
      exact h x hx

/-- Witness for C4: at selection-commit time with every selected entry
reported, and on receipt of the last awaited result in the spec's
10-repositories/3-selected scenario, the handlers cancel, stop listening
and proceed to the existing-PR check. -/
theorem selected_done_triggers_cancel_witness :
    (∃ m2, handleBatchRepoSelectEnter c4DoneModel = (m2, .fetchBatchCommits)
      ∧ m2.cancelTriggered = true ∧ m2.batchResultsChanOpen = false
      ∧ m2.screen = .loading ∧ m2.loadingMessage = "Checking for existing PRs...")
    ∧ (∃ m2, handleBatchRepoCommitResult c4Model 2
          [{ Hash := "def5678", Message := "feat: y", Tickets := [] }]
        = (m2, .fetchBatchCommits)
      ∧ m2.cancelTriggered = true ∧ m2.batchResultsChanOpen = false
      ∧ m2.loadingMessage = "Checking for existing PRs...") :=
  ⟨(selected_done_triggers_cancel c4DoneModel 0 []).1 (by decide) (by decide) rfl,
   (selected_done_triggers_cancel c4Model 2
      [{ Hash := "def5678", Message := "feat: y", Tickets := [] }]).2.1
     rfl rfl rfl (by decide)⟩

/-! ## Theorems: scan session concurrency -/

theorem set_getElem?_done {ws : List WorkerPhase} {j : Nat} {a : WorkerPhase} {i : Nat}
    {b : Bool} (hw : ws[i]? = some (.done b))
    (hj : ws[j]? = some .atStart ∨ ws[j]? = some .running ∨ ws[j]? = some .ready) :
    (ws.set j a)[i]? = some (.done b) := by
  by_cases hji : j = i
  · subst hji
    rcases hj with h | h | h <;> rw [h] at hw <;> exact absurd hw (by simp)
  · rw [List.getElem?_set_ne hji]
    exact hw

theorem step_done_preserved {cap : Nat} {s s' : SessionState} {l : SessionLabel}
    (h : Step cap s l s') {i : Nat} {b : Bool}
    (hw : s.workers[i]? = some (.done b)) : s'.workers[i]? = some (.done b) := by
  cases h with
  | checkPass h1 h2 => exact set_getElem?_done hw (Or.inl h1)
  | checkCancelled h1 h2 => exact set_getElem?_done hw (Or.inl h1)
  | compute h1 => exact set_getElem?_done hw (Or.inr (Or.inl h1))
  | publish h1 h2 => exact set_getElem?_done hw (Or.inr (Or.inr h1))
  | discard h1 h2 => exact set_getElem?_done hw (Or.inr (Or.inr h1))
  | cancel h1 => exact hw
  | receive h1 => exact hw
  | close h1 h2 => exact hw

theorem step_closed_mono {cap : Nat} {s s' : SessionState} {l : SessionLabel}
    (h : Step cap s l s') (hc : s.closed = true) : s'.closed = true := by
  cases h <;> first | exact hc | rfl

theorem step_cancelled_mono {cap : Nat} {s s' : SessionState} {l : SessionLabel}
    (h : Step cap s l s') (hc : s.cancelled = true) : s'.cancelled = true := by
  cases h <;> first | exact hc | rfl

theorem step_closed_eq_of_ne_close {cap : Nat} {s s' : SessionState} {l : SessionLabel}
    (h : Step cap s l s') (hl : l ≠ SessionLabel.close) : s'.closed = s.closed := by
  cases h <;> first | rfl | exact absurd rfl hl

theorem trace_no_publish_of_done {cap : Nat} {i : Nat} {b : Bool} :
    ∀ {s : SessionState} {ls : List SessionLabel} {s' : SessionState},
      Trace cap s ls s' → s.workers[i]? = some (.done b) →
      SessionLabel.publish i ∉ ls := by
  intro s ls s' ht
  induction ht with
  | nil => intro _ hmem; exact List.not_mem_nil _ hmem
  | cons hstep htail ih =>
    intro hw hmem
    rcases List.mem_cons.mp hmem with heq | hmem'
    · cases heq.symm.trans rfl
      cases hstep with
      | publish h1 h2 =>
        rw [hw] at h1
        simp at h1
    · exact ih (step_done_preserved hstep hw) hmem'

theorem publish_count_le_one {cap : Nat} {i : Nat} :
    ∀ {s : SessionState} {ls : List SessionLabel} {s' : SessionState},
      Trace cap s ls s' → ls.count (SessionLabel.publish i) ≤ 1 := by
  intro s ls s' ht
  induction ht with
  | nil => exact Nat.zero_le 1
  | cons hstep htail ih =>
    rename_i sa sb sc l lrest
    rw [List.count_cons]
    by_cases hl : l = SessionLabel.publish i
    · subst hl
      cases hstep with
      | publish h1 h2 =>
        have hlen : i < sa.workers.length := by
          by_contra hge
          rw [List.getElem?_eq_none (Nat.le_of_not_lt hge)] at h1
          exact Option.noConfusion h1
        have hdone : (sa.workers.set i (.done true))[i]? = some (.done true) :=
          List.getElem?_set_self (by simpa using hlen)
        have hz : lrest.count (SessionLabel.publish i) = 0 :=
          List.count_eq_zero.mpr (trace_no_publish_of_done htail hdone)
        simp [hz]
    · simp only [beq_iff_eq, hl, if_false]
      simpa using ih

theorem alldone_not_step {ws : List WorkerPhase} {j : Nat}
    (hd : AllDone ws)
    (hj : ws[j]? = some .atStart ∨ ws[j]? = some .running ∨ ws[j]? = some .ready) :
    False := by
  rcases hj with h | h | h <;>
    exact absurd (hd _ (List.getElem?_mem h)) (by simp)

theorem step_from_allDone {cap : Nat} {s s' : SessionState} {l : SessionLabel}
    (h : Step cap s l s') (hd : AllDone s.workers) :
    s'.workers = s.workers ∧ ∀ i, l ≠ SessionLabel.publish i := by
  cases h with
  | checkPass h1 h2 => exact absurd (alldone_not_step hd (Or.inl h1)) id
  | checkCancelled h1 h2 => exact absurd (alldone_not_step hd (Or.inl h1)) id
  | compute h1 => exact absurd (alldone_not_step hd (Or.inr (Or.inl h1))) id
  | publish h1 h2 => exact absurd (alldone_not_step hd (Or.inr (Or.inr h1))) id
  | discard h1 h2 => exact absurd (alldone_not_step hd (Or.inr (Or.inr h1))) id
  | cancel h1 => exact ⟨rfl, fun i hi => SessionLabel.noConfusion hi⟩
  | receive h1 => exact ⟨rfl, fun i hi => SessionLabel.noConfusion hi⟩
  | close h1 h2 => exact ⟨rfl, fun i hi => SessionLabel.noConfusion hi⟩

theorem trace_from_allDone {cap : Nat} :
    ∀ {s : SessionState} {ls : List SessionLabel} {s' : SessionState},
      Trace cap s ls s' → AllDone s.workers →
      AllDone s'.workers ∧ ∀ i, SessionLabel.publish i ∉ ls := by
  intro s ls s' ht
  induction ht with
  | nil => intro hd; exact ⟨hd, fun i h => List.not_mem_nil _ h⟩
  | cons hstep htail ih =>
    intro hd
    obtain ⟨hw, hnp⟩ := step_from_allDone hstep hd
    have hd1 : AllDone _ := hw ▸ hd
    obtain ⟨hfin, hrest⟩ := ih hd1
    refine ⟨hfin, fun i hmem => ?_⟩
    rcases List.mem_cons.mp hmem with heq | hmem'
    · exact hnp i heq.symm
    · exact hrest i hmem'

theorem step_inv_closed {cap : Nat} {s s' : SessionState} {l : SessionLabel}
    (h : Step cap s l s') (hi : s.closed = true → AllDone s.workers) :
    s'.closed = true → AllDone s'.workers := by
  cases h with
  | checkPass h1 h2 =>
    intro hc
    exact absurd (alldone_not_step (hi hc) (Or.inl h1)) id
  | checkCancelled h1 h2 =>
    intro hc
    exact absurd (alldone_not_step (hi hc) (Or.inl h1)) id
  | compute h1 =>
    intro hc
    exact absurd (alldone_not_step (hi hc) (Or.inr (Or.inl h1))) id
  | publish h1 h2 =>
    intro hc
    exact absurd (alldone_not_step (hi hc) (Or.inr (Or.inr h1))) id
  | discard h1 h2 =>
    intro hc
    exact absurd (alldone_not_step (hi hc) (Or.inr (Or.inr h1))) id
  | cancel h1 => exact hi
  | receive h1 => exact hi
  | close h1 h2 => intro _; exact h1

theorem trace_inv_closed {cap : Nat} :
    ∀ {s : SessionState} {ls : List SessionLabel} {s' : SessionState},
      Trace cap s ls s' → (s.closed = true → AllDone s.workers) →
      s'.closed = true → AllDone s'.workers := by
  intro s ls s' ht
  induction ht with
  | nil => intro hi; exact hi
  | cons hstep htail ih => intro hi; exact ih (step_inv_closed hstep hi)

theorem trace_no_close_of_closed {cap : Nat} :
    ∀ {s : SessionState} {ls : List SessionLabel} {s' : SessionState},
      Trace cap s ls s' → s.closed = true → SessionLabel.close ∉ ls := by
  intro s ls s' ht
  induction ht with
  | nil => intro _ hmem; exact List.not_mem_nil _ hmem
  | cons hstep htail ih =>
    intro hc hmem
    rcases List.mem_cons.mp hmem with heq | hmem'
    · cases heq.symm.trans rfl
      cases hstep with
      | close h1 h2 => exact Bool.noConfusion (h2.symm.trans hc)
    · exact ih (step_closed_mono hstep hc) hmem'

theorem trace_close_count {cap : Nat} :
    ∀ {s : SessionState} {ls : List SessionLabel} {s' : SessionState},
      Trace cap s ls s' → s.closed = false → ls.count SessionLabel.close ≤ 1 := by
  intro s ls s' ht
  induction ht with
  | nil => intro _; exact Nat.zero_le 1
  | cons hstep htail ih =>
    rename_i sa sb sc l lrest
    intro hc
    rw [List.count_cons]
    by_cases hl : l = SessionLabel.close
    · subst hl
      have hcl : sb.closed = true := by
        cases hstep with
        | close h1 h2 => rfl
      have hz : lrest.count SessionLabel.close = 0 :=
        List.count_eq_zero.mpr (trace_no_close_of_closed htail hcl)
      simp [hz]
    · have hcb : sb.closed = false := (step_closed_eq_of_ne_close hstep hl).trans hc
      simp only [beq_iff_eq, hl, if_false]
      simpa using ih hcb

theorem trace_append {cap : Nat} :
    ∀ {l1 : List SessionLabel} {s : SessionState} {l2 : List SessionLabel}
      {s2 : SessionState}, Trace cap s (l1 ++ l2) s2 →
      ∃ s1, Trace cap s l1 s1 ∧ Trace cap s1 l2 s2 := by
  intro l1
  induction l1 with
  | nil => intro s l2 s2 ht; exact ⟨s, Trace.nil s, ht⟩
  | cons l ls ih =>
    intro s l2 s2 ht
    cases ht with
    | cons hstep htail =>
      obtain ⟨s1, t1, t2⟩ := ih htail
      exact ⟨s1, Trace.cons hstep t1, t2⟩

theorem trace_concat {cap : Nat} :
    ∀ {s : SessionState} {l1 : List SessionLabel} {s1 : SessionState}
      {l2 : List SessionLabel} {s2 : SessionState},
      Trace cap s l1 s1 → Trace cap s1 l2 s2 → Trace cap s (l1 ++ l2) s2 := by
  intro s l1 s1 l2 s2 h1
  induction h1 with
  | nil => intro h2; exact h2
  | cons hstep htail ih => intro h2; exact Trace.cons hstep (ih h2)

theorem lt_of_getElem?_some {α : Type} {l : List α} {i : Nat} {a : α}
    (h : l[i]? = some a) : i < l.length := by
  by_contra hge
  rw [List.getElem?_eq_none (Nat.le_of_not_lt hge)] at h
  exact Option.noConfusion h

theorem getElem?_append_cons {α : Type} (pre : List α) (w : α) (rest : List α) :
    (pre ++ w :: rest)[pre.length]? = some w := by
  rw [List.getElem?_append_right (Nat.le_refl pre.length)]
  simp

theorem set_append_cons {α : Type} (pre : List α) (w w' : α) (rest : List α) :
    (pre ++ w :: rest).set pre.length w' = pre ++ w' :: rest := by
  induction pre with
  | nil => rfl
  | cons a pre ih => simpa using ih

theorem alldone_nil : AllDone [] :=
  fun w hw => absurd hw (List.not_mem_nil w)

theorem alldone_single (b : Bool) : AllDone [WorkerPhase.done b] := by
  intro w hw
  rw [List.mem_singleton] at hw
  exact ⟨b, hw⟩

theorem alldone_append {a b : List WorkerPhase} (ha : AllDone a) (hb : AllDone b) :
    AllDone (a ++ b) := by
  intro w hw
  rcases List.mem_append.mp hw with h | h
  · exact ha w h
  · exact hb w h

theorem drain_workers {cap : Nat} :
    ∀ (suf pre : List WorkerPhase) (s : SessionState),
      s.cancelled = true → s.workers = pre ++ suf → AllDone pre →
      ∃ ls s', Trace cap s ls s' ∧ AllDone s'.workers
        ∧ s'.closed = s.closed ∧ s'.cancelled = true := by
  intro suf
  induction suf with
  | nil =>
    intro pre s hc hw hd
    refine ⟨[], s, Trace.nil s, ?_, rfl, hc⟩
    rw [hw, List.append_nil]
    exact hd
  | cons w rest ih =>
    intro pre s hc hw hd
    cases w with
    | done b =>
      have hw' : s.workers = (pre ++ [WorkerPhase.done b]) ++ rest := by
        rw [hw, List.append_assoc]
        rfl
      exact ih (pre ++ [WorkerPhase.done b]) s hc hw'
        (alldone_append hd (alldone_single b))
    | atStart =>
      have h1 : s.workers[pre.length]? = some WorkerPhase.atStart := by
        rw [hw]
        exact getElem?_append_cons pre _ rest
      have hw1 : ({ s with workers := s.workers.set pre.length (WorkerPhase.done false) }
            : SessionState).workers = (pre ++ [WorkerPhase.done false]) ++ rest := by
        show s.workers.set pre.length (WorkerPhase.done false) = _
        rw [hw, set_append_cons, List.append_assoc]
        rfl
      obtain ⟨ls, s', ht, hfin, hcl, hcc⟩ := ih (pre ++ [WorkerPhase.done false])
        { s with workers := s.workers.set pre.length (WorkerPhase.done false) } hc hw1
        (alldone_append hd (alldone_single false))
      exact ⟨SessionLabel.checkCancelled pre.length :: ls, s',
        Trace.cons (Step.checkCancelled h1 hc) ht, hfin, hcl, hcc⟩
    | ready =>
      have h1 : s.workers[pre.length]? = some WorkerPhase.ready := by
        rw [hw]
        exact getElem?_append_cons pre _ rest
      have hw1 : ({ s with workers := s.workers.set pre.length (WorkerPhase.done false) }
            : SessionState).workers = (pre ++ [WorkerPhase.done false]) ++ rest := by
        show s.workers.set pre.length (WorkerPhase.done false) = _
        rw [hw, set_append_cons, List.append_assoc]
        rfl
      obtain ⟨ls, s', ht, hfin, hcl, hcc⟩ := ih (pre ++ [WorkerPhase.done false])
        { s with workers := s.workers.set pre.length (WorkerPhase.done false) } hc hw1
        (alldone_append hd (alldone_single false))
      exact ⟨SessionLabel.discard pre.length :: ls, s',
        Trace.cons (Step.discard h1 hc) ht, hfin, hcl, hcc⟩
    | running =>
      have h1 : s.workers[pre.length]? = some WorkerPhase.running := by
        rw [hw]
        exact getElem?_append_cons pre _ rest
      have hw1 : ({ s with workers := s.workers.set pre.length WorkerPhase.ready }
            : SessionState).workers = pre ++ WorkerPhase.ready :: rest := by
        show s.workers.set pre.length WorkerPhase.ready = _
        rw [hw, set_append_cons]
      have h2 : ({ s with workers := s.workers.set pre.length WorkerPhase.ready }
            : SessionState).workers[pre.length]? = some WorkerPhase.ready := by
        rw [hw1]
        exact getElem?_append_cons pre _ rest
      have hw2 : (({ s with workers := s.workers.set pre.length WorkerPhase.ready }
            : SessionState).workers.set pre.length (WorkerPhase.done false))
          = (pre ++ [WorkerPhase.done false]) ++ rest := by
        rw [hw1, set_append_cons, List.append_assoc]
        rfl
      obtain ⟨ls, s', ht, hfin, hcl, hcc⟩ := ih (pre ++ [WorkerPhase.done false])
        { s with workers := (s.workers.set pre.length WorkerPhase.ready).set pre.length (WorkerPhase.done false) } hc hw2
        (alldone_append hd (alldone_single false))
      exact ⟨SessionLabel.compute pre.length :: SessionLabel.discard pre.length :: ls, s',
        Trace.cons (Step.compute h1) (Trace.cons (Step.discard h2 hc) ht), hfin, hcl, hcc⟩

theorem finish_from_cancelled (cap : Nat) (s : SessionState) (hc : s.cancelled = true) :
    ∃ ls s', Trace cap s ls s' ∧ s'.closed = true ∧ AllDone s'.workers := by
  obtain ⟨ls, s', ht, hfin, hcl, _⟩ :=
    @drain_workers cap s.workers [] s hc (List.nil_append s.workers).symm alldone_nil
  rcases hb : s'.closed with _ | _
  · exact ⟨ls ++ [SessionLabel.close], _,
      trace_concat ht (Trace.cons (Step.close hfin hb) (Trace.nil _)), rfl, hfin⟩
  · exact ⟨ls, s', ht, hb, hfin⟩

theorem session_can_finish (cap : Nat) (s : SessionState) :
    ∃ ls s', Trace cap s ls s' ∧ s'.closed = true ∧ AllDone s'.workers := by
  rcases hb : s.cancelled with _ | _
  · obtain ⟨ls, s', ht, hcl, hfin⟩ :=
      finish_from_cancelled cap { s with cancelled := true } rfl
    exact ⟨SessionLabel.cancel :: ls, s', Trace.cons (Step.cancel hb) ht, hcl, hfin⟩
  · exact finish_from_cancelled cap s hb

/-- C2.  In every execution of a scan session: the result stream is closed
at most once; whenever it is closed, every worker has returned (so a
consumer draining until close can never race with a residual writer — in
particular no publish ever happens after the close); and from every
reachable state the session can still run to completion with the stream
closed and all workers returned, so the close indeed happens. -/
theorem scan_stream_close_once (n cap : Nat) (ls : List SessionLabel) (s : SessionState)
    (ht : Trace cap (initSession n) ls s) :
    ls.count SessionLabel.close ≤ 1
    ∧ (s.closed = true → AllDone s.workers)
    ∧ (∀ l1 l2, ls = l1 ++ SessionLabel.close :: l2 →
        ∀ i, SessionLabel.publish i ∉ l2)
    ∧ (∃ ls2 s2, Trace cap s ls2 s2 ∧ s2.closed = true ∧ AllDone s2.workers) := by
  refine ⟨trace_close_count ht rfl,
    trace_inv_closed ht (fun hc => Bool.noConfusion hc), ?_,
    session_can_finish cap s⟩
  intro l1 l2 hls i
  subst hls
  obtain ⟨s1, t1, t2⟩ := trace_append ht
  cases t2 with
  | cons hstep t3 =>
    cases hstep with
    | close hall h2 =>
      exact (trace_from_allDone t3 hall).2 i

/-- Witness for C2: a one-worker session that checks, computes, publishes,
is drained and closed; the conclusion is the theorem instantiated at that
execution. -/
theorem scan_stream_close_once_witness :
    ([SessionLabel.checkPass 0, SessionLabel.compute 0, SessionLabel.publish 0,
        SessionLabel.receive 0, SessionLabel.close].count SessionLabel.close ≤ 1)
    ∧ ((SessionState.mk [WorkerPhase.done true] [] true false).closed = true →
        AllDone (SessionState.mk [WorkerPhase.done true] [] true false).workers)
    ∧ (∀ l1 l2, [SessionLabel.checkPass 0, SessionLabel.compute 0, SessionLabel.publish 0,
          SessionLabel.receive 0, SessionLabel.close] = l1 ++ SessionLabel.close :: l2 →
        ∀ i, SessionLabel.publish i ∉ l2)
    ∧ (∃ ls2 s2, Trace 1 (SessionState.mk [WorkerPhase.done true] [] true false) ls2 s2
        ∧ s2.closed = true ∧ AllDone s2.workers) :=
  scan_stream_close_once 1 1
    [SessionLabel.checkPass 0, SessionLabel.compute 0, SessionLabel.publish 0,
      SessionLabel.receive 0, SessionLabel.close]
    (SessionState.mk [WorkerPhase.done true] [] true false)
    (Trace.cons (Step.checkPass (by decide) (by decide))
      (Trace.cons (Step.compute (by decide))
        (Trace.cons (Step.publish (by decide) (by decide))
          (Trace.cons (Step.receive rfl)
            (Trace.cons (Step.close (by decide) (by decide))
              (Trace.nil _))))))

/-- C3 counterexample.  The claim that a worker that has not yet published
when cancellation fires never writes to the result channel is false: the
publish `select` does not prioritise `ctx.Done`, so after `cancel` a
worker holding a computed result may still take the send branch.  The
execution `checkPass 0, compute 0, cancel, publish 0` is legal and
publishes after cancellation. -/
theorem cancelled_worker_may_publish :
    ¬ (∀ (n cap : Nat) (ls : List SessionLabel) (s : SessionState),
        Trace cap (initSession n) ls s →
        ∀ l1 l2, ls = l1 ++ SessionLabel.cancel :: l2 →
        ∀ i, SessionLabel.publish i ∉ l1 → SessionLabel.publish i ∉ l2) := by
  intro h
  refine h 1 1 [SessionLabel.checkPass 0, SessionLabel.compute 0, SessionLabel.cancel,
      SessionLabel.publish 0]
    (SessionState.mk [WorkerPhase.done true] [0] false true)
    (Trace.cons (Step.checkPass (by decide) (by decide))
      (Trace.cons (Step.compute (by decide))
        (Trace.cons (Step.cancel (by decide))
          (Trace.cons (Step.publish (by decide) (by decide))
            (Trace.nil _)))))
    [SessionLabel.checkPass 0, SessionLabel.compute 0] [SessionLabel.publish 0] rfl 0
    (by decide) (by decide)

theorem cancelled_atStart_no_publish {cap : Nat} {i : Nat} :
    ∀ {s : SessionState} {ls : List SessionLabel} {s' : SessionState},
      Trace cap s ls s' → s.cancelled = true →
      s.workers[i]? = some WorkerPhase.atStart → SessionLabel.publish i ∉ ls := by
  intro s ls s' ht
  induction ht with
  | nil => intro _ _ h; exact List.not_mem_nil _ h
  | cons hstep htail ih =>
    intro hc hw hmem
    rcases List.mem_cons.mp hmem with heq | hmem'
    · cases hstep with
      | checkPass h1 h2 => exact Bool.noConfusion (h2.symm.trans hc)
      | checkCancelled h1 h2 => exact SessionLabel.noConfusion heq
      | compute h1 => exact SessionLabel.noConfusion heq
      | publish h1 h2 =>
        rename_i j
        have hij : i = j := by
          cases heq
          rfl
        subst hij
        rw [hw] at h1
        simp at h1
      | discard h1 h2 => exact SessionLabel.noConfusion heq
      | cancel h1 => exact SessionLabel.noConfusion heq
      | receive h1 => exact SessionLabel.noConfusion heq
      | close h1 h2 => exact SessionLabel.noConfusion heq
    · cases hstep with
      | checkPass h1 h2 => exact Bool.noConfusion (h2.symm.trans hc)
      | checkCancelled h1 h2 =>
        rename_i j
        by_cases hji : j = i
        · subst hji
          exact trace_no_publish_of_done htail
            (List.getElem?_set_self (lt_of_getElem?_some h1)) hmem'
        · exact ih hc (by rw [List.getElem?_set_ne hji]; exact hw) hmem'
      | compute h1 =>
        rename_i j
        by_cases hji : j = i
        · subst hji
          rw [hw] at h1
          simp at h1
        · exact ih hc (by rw [List.getElem?_set_ne hji]; exact hw) hmem'
      | publish h1 h2 =>
        rename_i j
        by_cases hji : j = i
        · subst hji
          rw [hw] at h1
          simp at h1
        · exact ih hc (by rw [List.getElem?_set_ne hji]; exact hw) hmem'
      | discard h1 h2 =>
        rename_i j
        by_cases hji : j = i
        · subst hji
          rw [hw] at h1
          simp at h1
        · exact ih hc (by rw [List.getElem?_set_ne hji]; exact hw) hmem'
      | cancel h1 => exact ih rfl hw hmem'
      | receive h1 => exact ih hc hw hmem'
      | close h1 h2 => exact ih hc hw hmem'

/-- C3 amended.  Every worker consults the cancellation token at its two
check points.  At the first (nonblocking) check an already-fired
cancellation deterministically makes the worker exit without ever writing:
a worker still at its first check in a cancelled state never publishes,
and a worker that takes the `checkCancelled` branch never publishes
afterwards.  At the second check (the publish `select`) cancellation is
offered but not prioritised, so a worker already holding its computed
result may either discard or still publish it — but every worker publishes
at most once in any execution. -/
theorem scan_cancellation_checks (n cap : Nat) (ls : List SessionLabel) (s : SessionState)
    (ht : Trace cap (initSession n) ls s) :
    (∀ i, ls.count (SessionLabel.publish i) ≤ 1)
    ∧ (∀ i ls2 s2, s.cancelled = true → s.workers[i]? = some WorkerPhase.atStart →
        Trace cap s ls2 s2 → SessionLabel.publish i ∉ ls2)
    ∧ (∀ l1 l2 i, ls = l1 ++ SessionLabel.checkCancelled i :: l2 →
        SessionLabel.publish i ∉ l2) := by
  refine ⟨fun i => publish_count_le_one ht, ?_, ?_⟩
  · intro i ls2 s2 hc hw ht2
    exact cancelled_atStart_no_publish ht2 hc hw
  · intro l1 l2 i hls
    subst hls
    obtain ⟨s1, t1, t2⟩ := trace_append ht
    cases t2 with
    | cons hstep t3 =>
      cases hstep with
      | checkCancelled h1 h2 =>
        have hdone : (s1.workers.set i (WorkerPhase.done false))[i]? =
            some (WorkerPhase.done false) :=
          List.getElem?_set_self (lt_of_getElem?_some h1)
        exact trace_no_publish_of_done t3 hdone

/-- Witness for the amended C3: a two-worker session in which cancellation
fires first; worker 0 exits at its first check and worker 1, already
mid-flight, finishes its call and discards. -/
theorem scan_cancellation_checks_witness :
    (∀ i, [SessionLabel.checkPass 1, SessionLabel.cancel, SessionLabel.checkCancelled 0,
        SessionLabel.compute 1, SessionLabel.discard 1, SessionLabel.close].count
          (SessionLabel.publish i) ≤ 1)
    ∧ (∀ i ls2 s2,
        (SessionState.mk [WorkerPhase.done false, WorkerPhase.done false] [] true
            true).cancelled = true →
        (SessionState.mk [WorkerPhase.done false, WorkerPhase.done false] [] true
            true).workers[i]? = some WorkerPhase.atStart →
        Trace 50 (SessionState.mk [WorkerPhase.done false, WorkerPhase.done false] [] true
            true) ls2 s2 →
        SessionLabel.publish i ∉ ls2)
    ∧ (∀ l1 l2 i, [SessionLabel.checkPass 1, SessionLabel.cancel,
          SessionLabel.checkCancelled 0, SessionLabel.compute 1, SessionLabel.discard 1,
          SessionLabel.close] = l1 ++ SessionLabel.checkCancelled i :: l2 →
        SessionLabel.publish i ∉ l2) :=
  scan_cancellation_checks 2 50
    [SessionLabel.checkPass 1, SessionLabel.cancel, SessionLabel.checkCancelled 0,
      SessionLabel.compute 1, SessionLabel.discard 1, SessionLabel.close]
    (SessionState.mk [WorkerPhase.done false, WorkerPhase.done false] [] true true)
    (Trace.cons (Step.checkPass (by decide) (by decide))
      (Trace.cons (Step.cancel (by decide))
        (Trace.cons (Step.checkCancelled (by decide) (by decide))
          (Trace.cons (Step.compute (by decide))
            (Trace.cons (Step.discard (by decide) (by decide))
              (Trace.cons (Step.close (by decide) (by decide))
                (Trace.nil _)))))))

end AttPR
